import Mathlib

/-!
# trojan-go: MySQL-backed authenticator (`statistic/mysql/mysql.go`)

A shallow embedding of `Authenticator.AuthUser` and `Authenticator.updater`.

* The in-memory cache (`statistic/memory`) is a list of user objects keyed by
  their hash; a method call on a user handle is written back at that key.
* The database is a table of rows together with a log of the statements that
  were issued; which statements fail is decided by an `Env`.
* Go `int64` arithmetic is exact integer arithmetic followed by `wrapInt64`.
-/

namespace TrojanGo

/-- Two's-complement reduction of an exact integer to the range of Go's `int64`. -/
def wrapInt64 (x : Int) : Int :=
  (x + 9223372036854775808) % 18446744073709551616 - 9223372036854775808

/-- The values an `int64` variable can hold. -/
def inInt64 (x : Int) : Prop :=
  -9223372036854775808 ≤ x ∧ x ≤ 9223372036854775807

instance (x : Int) : Decidable (inInt64 x) := by
  unfold inInt64; exact inferInstance

namespace memory

/-- Modelled from the spec: the cache-resident `User` of `statistic/memory`
(§3): identity hash, the two traffic counters accumulated since the last
reset, and the two speed limits. -/
structure User where
  hash : String
  sent : Nat
  recv : Nat
  speedSent : Int
  speedRecv : Int
deriving DecidableEq

/-- Modelled from the spec: `identityHash() -> hash` (§6). -/
def User.Hash (u : User) : String := u.hash

/-- Modelled from the spec: `resetTrafficCounters() -> (sentDelta, receivedDelta)`,
the swap-to-zero that returns the prior values (§4.1, §6); the second component
is the object after the call. -/
def User.ResetTraffic (u : User) : (Nat × Nat) × User :=
  ((u.sent, u.recv), { u with sent := 0, recv := 0 })

/-- Modelled from the spec: `setSpeedLimits(sent, received)` (§6); the result is
the object after the call. -/
def User.SetSpeedLimit (u : User) (send recv : Int) : User :=
  { u with speedSent := send, speedRecv := recv }

/-- Modelled from the spec: the `MemoryCache` of `statistic/memory` (§2, §6),
the users currently admitted, keyed by hash. -/
structure Authenticator where
  users : List User
deriving DecidableEq

/-- Modelled from the spec: `lookupUser(hash) -> (found: bool, User)` (§6);
a miss yields no handle (Go `nil`). -/
def Authenticator.AuthUser (m : Authenticator) (hash : String) : Bool × Option User :=
  match m.users.find? (fun u => u.hash == hash) with
  | some u => (true, some u)
  | none => (false, none)

/-- Modelled from the spec: `addUser(hash)` (§6), "inserting if absent" (§4.1);
a new entry starts with cleared counters and no speed limit. -/
def Authenticator.AddUser (m : Authenticator) (hash : String) : Authenticator :=
  if m.users.any (fun u => u.hash == hash) then m
  else { users := { hash := hash, sent := 0, recv := 0, speedSent := 0, speedRecv := 0 } :: m.users }

/-- Modelled from the spec: `removeUser(hash)` (§6). -/
def Authenticator.DelUser (m : Authenticator) (hash : String) : Authenticator :=
  { users := m.users.filter (fun u => u.hash != hash) }

/-- Modelled from the spec: `listUsers() -> sequence of User` (§6). -/
def Authenticator.ListUsers (m : Authenticator) : List User := m.users

/-- Modelled from the spec: users are held by reference (§3), so a method
called on a handle changes the cache entry stored under the handle's hash. -/
def Authenticator.writeBack (m : Authenticator) (u : User) : Authenticator :=
  { users := m.users.map (fun v => if v.hash = u.hash then u else v) }

end memory

/-- Modelled from the spec: a Store record (§3, §6), one row of table `users`. -/
structure Row where
  password : String
  quota : Int
  download : Int
  upload : Int
  speed_sent : Int
  speed_recv : Int
deriving DecidableEq

/-- The three statements `mysql.go` sends to the database. -/
inductive Call where
  | exec (recv sent : Nat) (hash : String)
  | query
  | queryRow (hash : String)
deriving DecidableEq

/-- Which database operations fail: `execFails h` for the `UPDATE` of hash `h`,
`queryFails` for the full-table `SELECT` (including `rows.Err()`),
`queryRowFails h` for the single-row `SELECT` of `h`, `scanFails r` for
decoding row `r`. -/
structure Env where
  execFails : String → Bool
  queryFails : Bool
  queryRowFails : String → Bool
  scanFails : Row → Bool

/-- Modelled from the spec: the Store handle (§2, §6), the rows of table
`users` and the statements issued on it so far. -/
structure DB where
  users : List Row
  calls : List Call
deriving DecidableEq

/-- Modelled from the spec: "additive update of upload/download by hash with
affected-row-count feedback" (§6). A failing statement changes no row. -/
def DB.Exec (env : Env) (db : DB) (recv sent : Nat) (hash : String) : Option Int × DB :=
  let calls := db.calls ++ [Call.exec recv sent hash]
  if env.execFails hash then (none, { db with calls := calls })
  else
    (some ((db.users.filter (fun r => r.password == hash)).length : Int),
     { users := db.users.map (fun r =>
         if r.password = hash then
           { r with upload := r.upload + (recv : Int), download := r.download + (sent : Int) }
         else r),
       calls := calls })

/-- Modelled from the spec: "full-table scan" (§6). -/
def DB.Query (env : Env) (db : DB) : Option (List Row) × DB :=
  let db1 : DB := { db with calls := db.calls ++ [Call.query] }
  if env.queryFails then (none, db1) else (some db.users, db1)

/-- Modelled from the spec: decoding one row of a result set (§7 (3)). -/
def Scan (env : Env) (r : Row) : Option Row :=
  if env.scanFails r then none else some r

/-- Modelled from the spec: "single-row point query by hash" (§6) followed by
`Scan`; no row, a failing query and a failing decode all give an error. -/
def DB.QueryRow (env : Env) (db : DB) (hash : String) : Option Row × DB :=
  let db1 : DB := { db with calls := db.calls ++ [Call.queryRow hash] }
  if env.queryRowFails hash then (none, db1)
  else
    match db.users.find? (fun r => r.password == hash) with
    | none => (none, db1)
    | some r => (Scan env r, db1)

/-- The `Authenticator` of `mysql.go`: the embedded memory authenticator and
the database handle. -/
structure Authenticator extends memory.Authenticator where
  db : DB
deriving DecidableEq

/-- Promoted method `a.AddUser(hash)`. -/
def Authenticator.AddUser (a : Authenticator) (hash : String) : Authenticator :=
  { a with toAuthenticator := a.toAuthenticator.AddUser hash }

/-- Promoted method `a.DelUser(hash)`. -/
def Authenticator.DelUser (a : Authenticator) (hash : String) : Authenticator :=
  { a with toAuthenticator := a.toAuthenticator.DelUser hash }

/-- Promoted method `a.ListUsers()`. -/
def Authenticator.ListUsers (a : Authenticator) : List memory.User :=
  a.toAuthenticator.ListUsers

/-- Effect on the authenticator of a method that mutated user object `u`. -/
def Authenticator.writeBack (a : Authenticator) (u : memory.User) : Authenticator :=
  { a with toAuthenticator := a.toAuthenticator.writeBack u }

/-- `Authenticator.AuthUser` (mysql.go, lines 91-111). The handle returned on
the admitting branch is the outer `u`, the result of the first lookup. -/
def Authenticator.AuthUser (env : Env) (a : Authenticator) (hash : String) :
    (Bool × Option memory.User) × Authenticator :=
  let (exist, u) := a.toAuthenticator.AuthUser hash
  if exist then ((exist, u), a)
  else
    match a.db.QueryRow env hash with
    | (none, db1) => ((false, none), { a with db := db1 })
    | (some row, db1) =>
      let a1 : Authenticator := { a with db := db1 }
      if wrapInt64 (row.download + row.upload) < row.quota || row.quota ≤ 0 then
        let a2 := a1.AddUser hash
        let a3 :=
          match a2.toAuthenticator.AuthUser hash with
          | (true, some u) => a2.writeBack (u.SetSpeedLimit row.speed_sent row.speed_recv)
          | _ => a2
        ((true, u), a3)
      else ((false, none), a1)

/-- One iteration of the flush loop of `updater` (mysql.go, lines 34-51) for
the user object `user` of the `ListUsers` snapshot; `acc` is the authenticator
together with the running `affected` count. -/
def flushUser (env : Env) (acc : Authenticator × Int) (user : memory.User) :
    Authenticator × Int :=
  let (a, affected) := acc
  let hash := user.Hash
  let ((sent, recv), user1) := user.ResetTraffic
  let a1 := a.writeBack user1
  if sent == 0 && recv == 0 then (a1, affected)
  else
    match a1.db.Exec env recv sent hash with
    | (none, db1) => ({ a1 with db := db1 }, affected)
    | (some r, db1) =>
      let a2 : Authenticator := { a1 with db := db1 }
      let a3 := if r == 0 then a2.DelUser hash else a2
      (a3, wrapInt64 (affected + r))

/-- The flush phase of one cycle of `updater` (mysql.go, lines 33-52). -/
def flushPhase (env : Env) (a : Authenticator) : Authenticator × Int :=
  a.ListUsers.foldl (flushUser env) (a, 0)

/-- The body of the load loop of `updater` for one decoded row (mysql.go,
lines 70-77). -/
def loadRow (a : Authenticator) (row : Row) : Authenticator :=
  if wrapInt64 (row.download + row.upload) < row.quota || row.quota ≤ 0 then
    let a1 := a.AddUser row.password
    match a1.toAuthenticator.AuthUser row.password with
    | (true, some u) => a1.writeBack (u.SetSpeedLimit row.speed_sent row.speed_recv)
    | _ => a1
  else a.DelUser row.password

/-- The load loop of `updater` (mysql.go, lines 61-78); the first row that
fails to decode ends the loop. -/
def loadRows (env : Env) : List Row → Authenticator → Authenticator
  | [], a => a
  | r :: rs, a =>
    match Scan env r with
    | none => a
    | some row => loadRows env rs (loadRow a row)

/-- The load phase of one cycle of `updater` (mysql.go, lines 55-80); the flag
is `false` when the query fails and the rows are not read. -/
def loadPhase (env : Env) (a : Authenticator) : Authenticator × Bool :=
  match a.db.Query env with
  | (none, db1) => ({ a with db := db1 }, false)
  | (some rows, db1) => (loadRows env rows { a with db := db1 }, true)

/-- One pass through the body of the `for` loop of `updater` up to the
`select` (mysql.go, lines 33-80); the flag is `false` when the load query
failed and the loop took the `time.Sleep; continue` path. -/
def cycle (env : Env) (a : Authenticator) : Authenticator × Bool :=
  loadPhase env (flushPhase env a).1

/-- The two cases of the `select` at the end of a cycle. -/
inductive Select where
  | tick
  | done
deriving DecidableEq

/-- What a wait point finds: `ctxDone` when `a.ctx.Done()` is already closed,
`tickReady` when a tick is already buffered in `tk.C`, and `first`, the case
that fires when both or neither are ready on arrival. -/
structure Wait where
  ctxDone : Bool
  tickReady : Bool
  first : Select

/-- Go's `select` over `tk.C` and `a.ctx.Done()` (mysql.go, lines 82-87). -/
def Wait.select (w : Wait) : Select :=
  if w.ctxDone && !w.tickReady then Select.done
  else if w.tickReady && !w.ctxDone then Select.tick
  else w.first

/-- The loop of `updater` (mysql.go, lines 32-88) run against a script that
gives, for each successive cycle, the database failures and what the wait
point after it finds. The result is the final authenticator, the number of
cycles that were started, and whether `updater` returned. -/
def updater : List (Env × Wait) → Authenticator → Authenticator × Nat × Bool
  | [], a => (a, 0, false)
  | (env, w) :: rest, a =>
    match cycle env a with
    | (a1, false) =>
      let (a2, n, r) := updater rest a1
      (a2, n + 1, r)
    | (a1, true) =>
      match w.select with
      | Select.done => (a1, 1, true)
      | Select.tick =>
        let (a2, n, r) := updater rest a1
        (a2, n + 1, r)


/-- The environment in which no database operation fails. -/
def Env.ok : Env :=
  { execFails := fun _ => false, queryFails := false,
    queryRowFails := fun _ => false, scanFails := fun _ => false }

/-- A row with quota 1000 and no recorded usage. -/
def rowU1 : Row :=
  { password := "u1", quota := 1000, download := 0, upload := 0, speed_sent := 5, speed_recv := 7 }

/-- A row whose usage columns add up to `2^63`, one more than `int64` holds. -/
def rowOverflow : Row :=
  { password := "u1", quota := 1, download := 9223372036854775807, upload := 1,
    speed_sent := 0, speed_recv := 0 }

/-- An authenticator with an empty cache over a table holding `rows`. -/
def emptyCache (rows : List Row) : Authenticator :=
  { users := [], db := { users := rows, calls := [] } }

/-- An authenticator caching `users` over a table holding `rows`. -/
def cached (users : List memory.User) (rows : List Row) : Authenticator :=
  { users := users, db := { users := rows, calls := [] } }

/-- Whether a logged statement is the `UPDATE` for hash `h`. -/
def Call.isExecFor (h : String) : Call → Bool
  | Call.exec _ _ hash => hash == h
  | _ => false

/-- Number of `UPDATE` statements for hash `h` in a statement log. -/
def execCount (h : String) (calls : List Call) : Nat :=
  (calls.filter (Call.isExecFor h)).length

/-- The row `r` after the additive update that credits user `u`'s counters. -/
def credit (u : memory.User) (r : Row) : Row :=
  { r with upload := r.upload + (u.recv : Int), download := r.download + (u.sent : Int) }

/-- The user object `u` after its counters were cleared. -/
def cleared (u : memory.User) : memory.User := { u with sent := 0, recv := 0 }

/-- A wait point reached with the context already cancelled and no tick
buffered. -/
def Wait.cancelled : Wait :=
  { ctxDone := true, tickReady := false, first := Select.done }

/-- The environment in which only the full-table query fails. -/
def Env.queryDown : Env := { Env.ok with queryFails := true }

/-- A row whose usage columns add up to exactly its quota. -/
def rowAtQuota : Row :=
  { password := "u1", quota := 1000, download := 600, upload := 400, speed_sent := 5, speed_recv := 7 }

/-- A row whose usage columns add up to `-2^63 - 1`, one less than `int64` holds. -/
def rowUnderflow : Row :=
  { password := "u1", quota := 5, download := -9223372036854775808, upload := -1,
    speed_sent := 0, speed_recv := 0 }

/-! ## The memory cache -/

theorem memory.AuthUser_of_mem (m : memory.Authenticator) (hash : String)
    (h : ∃ u ∈ m.users, u.hash = hash) :
    ∃ u ∈ m.users, u.hash = hash ∧ m.AuthUser hash = (true, some u) := by
  unfold memory.Authenticator.AuthUser
  cases hf : m.users.find? (fun u => u.hash == hash) with
  | none =>
    obtain ⟨u, hu, rfl⟩ := h
    have := List.find?_eq_none.mp hf u hu
    simp at this
  | some v =>
    exact ⟨v, List.mem_of_find?_eq_some hf, by simpa using List.find?_some hf, rfl⟩

theorem memory.AuthUser_of_not_mem (m : memory.Authenticator) (hash : String)
    (h : ∀ u ∈ m.users, u.hash ≠ hash) : m.AuthUser hash = (false, none) := by
  unfold memory.Authenticator.AuthUser
  have : m.users.find? (fun u => u.hash == hash) = none := by
    rw [List.find?_eq_none]
    intro u hu
    simpa using h u hu
  rw [this]

/-- C3. For a hash that is present in the cache, `AuthUser` returns exactly the
result of the cache lookup, which is `true` with the cached user, and the
authenticator (cache, table and statement log) is unchanged: no statement is
sent to the database. -/
theorem AuthUser_cache_hit (env : Env) (a : Authenticator) (hash : String)
    (h : ∃ u ∈ a.users, u.hash = hash) :
    a.AuthUser env hash = (a.toAuthenticator.AuthUser hash, a) ∧
    ∃ u ∈ a.users, u.hash = hash ∧ (a.AuthUser env hash).1 = (true, some u) := by
  obtain ⟨u, hu, hh, hl⟩ := memory.AuthUser_of_mem a.toAuthenticator hash h
  have key : a.AuthUser env hash = ((true, some u), a) := by
    unfold Authenticator.AuthUser
    rw [hl]
    rfl
  refine ⟨by rw [key, hl], u, hu, hh, by rw [key]⟩


theorem QueryRow_users (env : Env) (db : DB) (hash : String) :
    (db.QueryRow env hash).2.users = db.users := by
  unfold DB.QueryRow
  simp only []
  split
  · rfl
  · split <;> rfl

theorem QueryRow_none (env : Env) (db : DB) (hash : String)
    (hq : env.queryRowFails hash = true ∨ (∀ r ∈ db.users, r.password ≠ hash) ∨
      ∃ r, db.users.find? (fun r => r.password == hash) = some r ∧ env.scanFails r = true) :
    (db.QueryRow env hash).1 = none := by
  unfold DB.QueryRow
  simp only []
  rcases hq with hq | hq | ⟨r, hr, hs⟩
  · simp [hq]
  · have : db.users.find? (fun r => r.password == hash) = none := by
      rw [List.find?_eq_none]
      intro r hr
      simpa using hq r hr
    split
    · rfl
    · rw [this]
  · split
    · rfl
    · rw [hr]
      simp [Scan, hs]

theorem QueryRow_some (env : Env) (db : DB) (row : Row)
    (hrow : db.users.find? (fun r => r.password == row.password) = some row)
    (hq : env.queryRowFails row.password = false) (hs : env.scanFails row = false) :
    (db.QueryRow env row.password).1 = some row := by
  unfold DB.QueryRow
  simp [hq, hrow, Scan, hs]

/-- C4. For a hash that is absent from the cache, when the single-row query
fails, finds no row, or its row fails to decode, `AuthUser` returns
`(false, nil)` and leaves the cache and the table unchanged. -/
theorem AuthUser_fail_closed (env : Env) (a : Authenticator) (hash : String)
    (hmiss : ∀ u ∈ a.users, u.hash ≠ hash)
    (hq : env.queryRowFails hash = true ∨ (∀ r ∈ a.db.users, r.password ≠ hash) ∨
      ∃ r, a.db.users.find? (fun r => r.password == hash) = some r ∧ env.scanFails r = true) :
    (a.AuthUser env hash).1 = (false, none) ∧
    (a.AuthUser env hash).2.toAuthenticator = a.toAuthenticator ∧
    (a.AuthUser env hash).2.db.users = a.db.users := by
  have hl := memory.AuthUser_of_not_mem a.toAuthenticator hash hmiss
  have hn := QueryRow_none env a.db hash hq
  have hu := QueryRow_users env a.db hash
  unfold Authenticator.AuthUser
  rw [hl]
  simp only [Bool.false_eq_true, if_false]
  generalize a.db.QueryRow env hash = q at hn hu
  obtain ⟨o, db1⟩ := q
  simp only at hn hu
  subst hn
  simp [hu]

theorem wrapInt64_of_inInt64 (x : Int) (h : inInt64 x) : wrapInt64 x = x := by
  unfold inInt64 at h
  unfold wrapInt64
  omega

theorem memory.AuthUser_fst (m : memory.Authenticator) (hash : String) :
    (m.AuthUser hash).1 = true ↔ ∃ u ∈ m.users, u.hash = hash := by
  constructor
  · intro h
    by_contra hn
    have : ∀ u ∈ m.users, u.hash ≠ hash := fun u hu he => hn ⟨u, hu, he⟩
    rw [memory.AuthUser_of_not_mem m hash this] at h
    simp at h
  · intro h
    obtain ⟨u, _, _, hl⟩ := memory.AuthUser_of_mem m hash h
    rw [hl]

theorem memory.AddUser_mem (m : memory.Authenticator) (hash : String) :
    ∃ u ∈ (m.AddUser hash).users, u.hash = hash := by
  unfold memory.Authenticator.AddUser
  split
  · rename_i h
    simpa using h
  · exact ⟨_, List.mem_cons_self _ _, rfl⟩

theorem memory.DelUser_not_mem (m : memory.Authenticator) (hash : String) :
    ∀ u ∈ (m.DelUser hash).users, u.hash ≠ hash := by
  intro u hu
  simp [memory.Authenticator.DelUser] at hu
  exact hu.2

theorem memory.writeBack_hashes (m : memory.Authenticator) (u : memory.User) :
    (m.writeBack u).users.map (fun v => v.hash) = m.users.map (fun v => v.hash) := by
  simp only [memory.Authenticator.writeBack, List.map_map]
  apply List.map_congr_left
  intro v _
  simp only [Function.comp]
  split
  · rename_i h; exact h.symm
  · rfl

theorem memory.exists_hash_iff (l : List memory.User) (hash : String) :
    (∃ u ∈ l, u.hash = hash) ↔ hash ∈ l.map (fun v => v.hash) := by
  simp [List.mem_map]

theorem loadRow_found (a : Authenticator) (row : Row) :
    ((loadRow a row).toAuthenticator.AuthUser row.password).1 = true ↔
      (wrapInt64 (row.download + row.upload) < row.quota ∨ row.quota ≤ 0) := by
  rw [memory.AuthUser_fst]
  unfold loadRow
  by_cases hc : wrapInt64 (row.download + row.upload) < row.quota ∨ row.quota ≤ 0
  · have hc2 : (decide (wrapInt64 (row.download + row.upload) < row.quota) || decide (row.quota ≤ 0)) = true := by
      simpa using hc
    rw [if_pos hc2]
    simp only [hc, iff_true]
    have hadd := memory.AddUser_mem a.toAuthenticator row.password
    split
    · simp only [Authenticator.writeBack, Authenticator.AddUser]
      rw [memory.exists_hash_iff, memory.writeBack_hashes, ← memory.exists_hash_iff]
      exact hadd
    · exact hadd
  · have hc2 : ¬ (decide (wrapInt64 (row.download + row.upload) < row.quota) || decide (row.quota ≤ 0)) = true := by
      simpa using hc
    rw [if_neg hc2]
    simp only [hc, iff_false]
    rintro ⟨u, hu, hh⟩
    exact memory.DelUser_not_mem a.toAuthenticator row.password u hu hh

theorem AuthUser_miss_fst (env : Env) (a : Authenticator) (row : Row)
    (hmiss : ∀ u ∈ a.users, u.hash ≠ row.password)
    (hrow : a.db.users.find? (fun r => r.password == row.password) = some row)
    (hq : env.queryRowFails row.password = false) (hs : env.scanFails row = false) :
    (a.AuthUser env row.password).1 =
      (decide (wrapInt64 (row.download + row.upload) < row.quota) || decide (row.quota ≤ 0), none) := by
  have hl := memory.AuthUser_of_not_mem a.toAuthenticator row.password hmiss
  have hn := QueryRow_some env a.db row hrow hq hs
  unfold Authenticator.AuthUser
  rw [hl]
  simp only [Bool.false_eq_true, if_false]
  generalize a.db.QueryRow env row.password = q at hn
  obtain ⟨o, db1⟩ := q
  simp only at hn
  subst hn
  simp only []
  split
  · rename_i h; rw [h]
  · rename_i h
    simp only [Bool.not_eq_true] at h
    rw [h]

/-- C1 (code at the failing input). With an empty cache and the admitted row
`rowU1` in the table, `AuthUser "u1"` answers `true` with a nil handle, although
the cache now holds exactly one entry for `"u1"` and a lookup returns it. -/
theorem AuthUser_fallback_returns_nil :
    ((emptyCache [rowU1]).AuthUser Env.ok "u1").1 = (true, none) ∧
    ((emptyCache [rowU1]).AuthUser Env.ok "u1").2.toAuthenticator.AuthUser "u1" =
      (true, some { hash := "u1", sent := 0, recv := 0, speedSent := 5, speedRecv := 7 }) ∧
    (((emptyCache [rowU1]).AuthUser Env.ok "u1").2.users.filter
      (fun u => u.hash == "u1")).length = 1 := by
  decide

/-- C2 (counterexample). For the row `rowOverflow`, whose three columns are
`int64` values, quota is positive and the exact sum `download + upload`
exceeds it, yet both the `AuthUser` fallback and the load loop admit the user. -/
theorem admission_overflow_counterexample :
    inInt64 rowOverflow.quota ∧ inInt64 rowOverflow.download ∧ inInt64 rowOverflow.upload ∧
    ((emptyCache [rowOverflow]).AuthUser Env.ok rowOverflow.password).1.1 = true ∧
    ((loadRow (emptyCache [rowOverflow]) rowOverflow).toAuthenticator.AuthUser
      rowOverflow.password).1 = true ∧
    ¬ (rowOverflow.quota ≤ 0 ∨
       rowOverflow.download + rowOverflow.upload < rowOverflow.quota) := by
  decide

/-- C2 (amended). For every row and every cache state the load loop leaves
the row's user in the cache exactly when `quota <= 0` or the `int64`
(wrap-around) sum `download + upload` is below `quota`; the `AuthUser` fallback
(cache miss, row found and decoded) answers `true` in exactly the same case,
so the two sites agree on every row. At both sites `quota <= 0` admits
whatever the usage, and for a row whose exact sum `download + upload` is an
`int64` value the decision is `quota <= 0` or `download + upload < quota`. -/
theorem admission_same_at_both_sites (env : Env) (a b : Authenticator) (row : Row) :
    ((((loadRow b row).toAuthenticator.AuthUser row.password).1 = true ↔
        (row.quota ≤ 0 ∨ wrapInt64 (row.download + row.upload) < row.quota)) ∧
      (row.quota ≤ 0 → ((loadRow b row).toAuthenticator.AuthUser row.password).1 = true) ∧
      (inInt64 (row.download + row.upload) →
        (((loadRow b row).toAuthenticator.AuthUser row.password).1 = true ↔
          (row.quota ≤ 0 ∨ row.download + row.upload < row.quota)))) ∧
    ((∀ u ∈ a.users, u.hash ≠ row.password) →
      a.db.users.find? (fun r => r.password == row.password) = some row →
      env.queryRowFails row.password = false → env.scanFails row = false →
      (((a.AuthUser env row.password).1.1 = true ↔
          ((loadRow b row).toAuthenticator.AuthUser row.password).1 = true) ∧
        ((a.AuthUser env row.password).1.1 = true ↔
          (row.quota ≤ 0 ∨ wrapInt64 (row.download + row.upload) < row.quota)) ∧
        (row.quota ≤ 0 → (a.AuthUser env row.password).1.1 = true) ∧
        (inInt64 (row.download + row.upload) →
          ((a.AuthUser env row.password).1.1 = true ↔
            (row.quota ≤ 0 ∨ row.download + row.upload < row.quota))))) := by
  have hL : ((loadRow b row).toAuthenticator.AuthUser row.password).1 = true ↔
      (row.quota ≤ 0 ∨ wrapInt64 (row.download + row.upload) < row.quota) := by
    rw [loadRow_found, or_comm]
  refine ⟨⟨hL, fun h0 => hL.mpr (Or.inl h0), ?_⟩, ?_⟩
  · intro hsum
    rw [hL, wrapInt64_of_inInt64 _ hsum]
  · intro hmiss hrow hq hs
    have hA : (a.AuthUser env row.password).1.1 = true ↔
        (row.quota ≤ 0 ∨ wrapInt64 (row.download + row.upload) < row.quota) := by
      rw [AuthUser_miss_fst env a row hmiss hrow hq hs]
      simp [or_comm]
    refine ⟨hA.trans hL.symm, hA, fun h0 => hA.mpr (Or.inl h0), ?_⟩
    intro hsum
    rw [hA, wrapInt64_of_inInt64 _ hsum]

/-- Witness of `admission_same_at_both_sites`: the row `rowAtQuota`, with
`download + upload = quota`, is denied at both sites, the load loop running
on a cache that holds the user. -/
theorem admission_same_at_both_sites_witness :
    inInt64 (rowAtQuota.download + rowAtQuota.upload) ∧
    (((emptyCache [rowAtQuota]).AuthUser Env.ok rowAtQuota.password).1.1 = true ↔
      ((loadRow (cached [⟨"u1", 1, 2, 3, 4⟩] [rowAtQuota]) rowAtQuota).toAuthenticator.AuthUser
        rowAtQuota.password).1 = true) ∧
    (((emptyCache [rowAtQuota]).AuthUser Env.ok rowAtQuota.password).1.1 = true ↔
      (rowAtQuota.quota ≤ 0 ∨ rowAtQuota.download + rowAtQuota.upload < rowAtQuota.quota)) ∧
    (((loadRow (cached [⟨"u1", 1, 2, 3, 4⟩] [rowAtQuota]) rowAtQuota).toAuthenticator.AuthUser
        rowAtQuota.password).1 = true ↔
      (rowAtQuota.quota ≤ 0 ∨ rowAtQuota.download + rowAtQuota.upload < rowAtQuota.quota)) :=
  ⟨by decide,
   ((admission_same_at_both_sites Env.ok (emptyCache [rowAtQuota])
      (cached [⟨"u1", 1, 2, 3, 4⟩] [rowAtQuota]) rowAtQuota).2
      (by decide) (by decide) rfl rfl).1,
   ((admission_same_at_both_sites Env.ok (emptyCache [rowAtQuota])
      (cached [⟨"u1", 1, 2, 3, 4⟩] [rowAtQuota]) rowAtQuota).2
      (by decide) (by decide) rfl rfl).2.2.2 (by decide),
   (admission_same_at_both_sites Env.ok (emptyCache [rowAtQuota])
      (cached [⟨"u1", 1, 2, 3, 4⟩] [rowAtQuota]) rowAtQuota).1.2.2 (by decide)⟩

/-- Witness of `AuthUser_cache_hit`. -/
theorem AuthUser_cache_hit_witness :
    (∃ u ∈ (cached [⟨"u1", 600, 500, 0, 0⟩] [rowU1]).users, u.hash = "u1") ∧
    (cached [⟨"u1", 600, 500, 0, 0⟩] [rowU1]).AuthUser Env.ok "u1" =
      ((cached [⟨"u1", 600, 500, 0, 0⟩] [rowU1]).toAuthenticator.AuthUser "u1",
       cached [⟨"u1", 600, 500, 0, 0⟩] [rowU1]) :=
  ⟨⟨_, List.mem_cons_self _ _, rfl⟩,
   (AuthUser_cache_hit Env.ok (cached [⟨"u1", 600, 500, 0, 0⟩] [rowU1]) "u1"
     ⟨_, List.mem_cons_self _ _, rfl⟩).1⟩

/-- Witness of `AuthUser_fail_closed`: an unknown hash on a failing database. -/
theorem AuthUser_fail_closed_witness :
    ((emptyCache [rowU1]).AuthUser { Env.ok with queryRowFails := fun _ => true } "u1").1
      = (false, none) ∧
    ((emptyCache [rowU1]).AuthUser { Env.ok with queryRowFails := fun _ => true } "u1").2.toAuthenticator
      = (emptyCache [rowU1]).toAuthenticator :=
  ⟨(AuthUser_fail_closed { Env.ok with queryRowFails := fun _ => true } (emptyCache [rowU1]) "u1"
      (by decide) (Or.inl rfl)).1,
   (AuthUser_fail_closed { Env.ok with queryRowFails := fun _ => true } (emptyCache [rowU1]) "u1"
      (by decide) (Or.inl rfl)).2.1⟩

/-! ## One iteration of the flush loop -/

theorem flushUser_zero (env : Env) (a : Authenticator) (n : Int) (v : memory.User)
    (h1 : v.sent = 0) (h2 : v.recv = 0) :
    flushUser env (a, n) v = (a.writeBack (cleared v), n) := by
  simp [flushUser, memory.User.ResetTraffic, h1, h2, cleared]

theorem flushUser_fail (env : Env) (a : Authenticator) (n : Int) (v : memory.User)
    (hz : ¬ (v.sent = 0 ∧ v.recv = 0)) (hf : env.execFails v.hash = true) :
    flushUser env (a, n) v =
      ({ a.writeBack (cleared v) with
          db := { a.db with calls := a.db.calls ++ [Call.exec v.recv v.sent v.hash] } }, n) := by
  have hz2 : (v.sent == 0 && v.recv == 0) = false := by
    simpa using hz
  simp [flushUser, memory.User.ResetTraffic, hz2, DB.Exec, memory.User.Hash, hf, cleared,
    Authenticator.writeBack]

theorem flushUser_ok (env : Env) (a : Authenticator) (n : Int) (v : memory.User)
    (hz : ¬ (v.sent = 0 ∧ v.recv = 0)) (hf : env.execFails v.hash = false) :
    flushUser env (a, n) v =
      (let a2 : Authenticator :=
          { a.writeBack (cleared v) with
            db := { users := a.db.users.map (fun r => if r.password = v.hash then credit v r else r),
                    calls := a.db.calls ++ [Call.exec v.recv v.sent v.hash] } }
       if ((a.db.users.filter (fun r => r.password == v.hash)).length : Int) == 0
         then a2.DelUser v.hash else a2,
       wrapInt64 (n + ((a.db.users.filter (fun r => r.password == v.hash)).length : Int))) := by
  have hz2 : (v.sent == 0 && v.recv == 0) = false := by
    simpa using hz
  simp [flushUser, memory.User.ResetTraffic, hz2, DB.Exec, memory.User.Hash, hf, cleared,
    Authenticator.writeBack, credit]

theorem flushUser_table (env : Env) (a : Authenticator) (n : Int) (v : memory.User) :
    (flushUser env (a, n) v).1.db.users =
      if (v.sent = 0 ∧ v.recv = 0) ∨ env.execFails v.hash = true then a.db.users
      else a.db.users.map (fun r => if r.password = v.hash then credit v r else r) := by
  by_cases hz : v.sent = 0 ∧ v.recv = 0
  · rw [flushUser_zero env a n v hz.1 hz.2]
    simp [hz, Authenticator.writeBack]
  · cases hf : env.execFails v.hash
    · rw [flushUser_ok env a n v hz hf]
      simp only [hz, false_or, Bool.false_eq_true, if_false]
      split <;> rfl
    · rw [flushUser_fail env a n v hz hf]
      simp

theorem flushUser_calls (env : Env) (a : Authenticator) (n : Int) (v : memory.User) :
    (flushUser env (a, n) v).1.db.calls =
      if v.sent = 0 ∧ v.recv = 0 then a.db.calls
      else a.db.calls ++ [Call.exec v.recv v.sent v.hash] := by
  by_cases hz : v.sent = 0 ∧ v.recv = 0
  · rw [flushUser_zero env a n v hz.1 hz.2]
    simp [hz, Authenticator.writeBack]
  · cases hf : env.execFails v.hash
    · rw [flushUser_ok env a n v hz hf]
      simp only [hz, if_false]
      split <;> rfl
    · rw [flushUser_fail env a n v hz hf]
      simp [hz]

theorem flushUser_users (env : Env) (a : Authenticator) (n : Int) (v : memory.User) :
    (flushUser env (a, n) v).1.toAuthenticator =
      if ¬ (v.sent = 0 ∧ v.recv = 0) ∧ env.execFails v.hash = false ∧
          (∀ r ∈ a.db.users, r.password ≠ v.hash)
      then (a.toAuthenticator.writeBack (cleared v)).DelUser v.hash
      else a.toAuthenticator.writeBack (cleared v) := by
  by_cases hz : v.sent = 0 ∧ v.recv = 0
  · rw [flushUser_zero env a n v hz.1 hz.2, if_neg (fun h => h.1 hz)]
    rfl
  · by_cases hf : env.execFails v.hash = true
    · rw [flushUser_fail env a n v hz hf, if_neg (fun h => by rw [hf] at h; exact absurd h.2.1 (by simp))]
      rfl
    · have hf2 : env.execFails v.hash = false := by simpa using hf
      rw [flushUser_ok env a n v hz hf2]
      by_cases hr : ∀ r ∈ a.db.users, r.password ≠ v.hash
      · have hc : (a.db.users.filter (fun r => r.password == v.hash)).length = 0 := by
          rw [List.length_eq_zero, List.filter_eq_nil_iff]
          intro r hr2
          simpa using hr r hr2
        have hcond : ¬ (v.sent = 0 ∧ v.recv = 0) ∧ env.execFails v.hash = false ∧
            (∀ r ∈ a.db.users, r.password ≠ v.hash) := ⟨hz, hf2, hr⟩
        simp only [hc]
        rw [if_pos hcond]
        rfl
      · have hc : (a.db.users.filter (fun r => r.password == v.hash)).length ≠ 0 := by
          rw [Ne, List.length_eq_zero, List.filter_eq_nil_iff]
          intro h
          apply hr
          intro r hr2
          simpa using h r hr2
        have hc2 : (((a.db.users.filter (fun r => r.password == v.hash)).length : Int) == 0) = false := by
          simpa using hc
        have hcond : ¬ (¬ (v.sent = 0 ∧ v.recv = 0) ∧ env.execFails v.hash = false ∧
            (∀ r ∈ a.db.users, r.password ≠ v.hash)) := fun h => hr h.2.2
        simp only [hc2]
        rw [if_neg hcond]
        rfl

theorem credit_password (u : memory.User) (r : Row) : (credit u r).password = r.password := rfl

theorem credit_zero (u : memory.User) (r : Row) (h1 : u.sent = 0) (h2 : u.recv = 0) :
    credit u r = r := by
  simp [credit, h1, h2]

theorem flushUser_row (env : Env) (a : Authenticator) (n : Int) (v : memory.User)
    (i : Nat) (r : Row) (hr : a.db.users[i]? = some r) :
    (flushUser env (a, n) v).1.db.users[i]? =
      some (if r.password = v.hash ∧ env.execFails v.hash = false then credit v r else r) := by
  rw [flushUser_table]
  by_cases hz : v.sent = 0 ∧ v.recv = 0
  · rw [if_pos (Or.inl hz), hr]
    split
    · rw [credit_zero v r hz.1 hz.2]
    · rfl
  · by_cases hf : env.execFails v.hash = true
    · rw [if_pos (Or.inr hf), hr, if_neg (fun h => by rw [hf] at h; exact absurd h.2 (by simp))]
    · have hf2 : env.execFails v.hash = false := by simpa using hf
      rw [if_neg (fun h => h.elim hz hf), List.getElem?_map, hr]
      simp [hf2]

/-! ## The flush loop -/

theorem flush_row_untouched (env : Env) (us : List memory.User) :
    ∀ (a : Authenticator) (n : Int) (i : Nat) (r : Row), a.db.users[i]? = some r →
      (∀ x ∈ us, x.hash = r.password →
        (x.sent = 0 ∧ x.recv = 0) ∨ env.execFails x.hash = true) →
      (us.foldl (flushUser env) (a, n)).1.db.users[i]? = some r := by
  induction us with
  | nil => intro a n i r hr _; exact hr
  | cons v vs ih =>
    intro a n i r hr hx
    rw [List.foldl_cons]
    have hstep := flushUser_row env a n v i r hr
    have hsame : (if r.password = v.hash ∧ env.execFails v.hash = false then credit v r else r)
        = r := by
      split
      · rename_i hc
        rcases hx v (List.mem_cons_self _ _) hc.1.symm with hz | hf
        · exact credit_zero v r hz.1 hz.2
        · rw [hc.2] at hf
          exact absurd hf (by simp)
      · rfl
    rw [hsame] at hstep
    cases hs : flushUser env (a, n) v with
    | mk a1 n1 =>
      rw [hs] at hstep
      exact ih a1 n1 i r hstep (fun x hxm => hx x (List.mem_cons_of_mem _ hxm))

theorem flush_row_credited (env : Env) (us : List memory.User) :
    ∀ (a : Authenticator) (n : Int) (i : Nat) (r : Row) (u : memory.User),
      (us.map (fun v => v.hash)).Nodup → u ∈ us → env.execFails u.hash = false →
      a.db.users[i]? = some r → r.password = u.hash →
      (us.foldl (flushUser env) (a, n)).1.db.users[i]? = some (credit u r) := by
  induction us with
  | nil => intro a n i r u _ hu; exact absurd hu (List.not_mem_nil _)
  | cons v vs ih =>
    intro a n i r u hnd hu hf hr hp
    rw [List.foldl_cons]
    have hstep := flushUser_row env a n v i r hr
    rw [List.map_cons, List.nodup_cons] at hnd
    cases hs : flushUser env (a, n) v with
    | mk a1 n1 =>
      rw [hs] at hstep
      rcases List.mem_cons.mp hu with rfl | hmem
      · rw [if_pos ⟨hp, hf⟩] at hstep
        apply flush_row_untouched env vs a1 n1 i (credit u r) hstep
        intro x hx hxh
        exfalso
        apply hnd.1
        rw [credit_password, hp] at hxh
        rw [← hxh]
        exact List.mem_map_of_mem (fun v => v.hash) hx
      · have hne : r.password ≠ v.hash := by
          intro h
          apply hnd.1
          rw [← h, hp]
          exact List.mem_map_of_mem (fun v => v.hash) hmem
        rw [if_neg (fun h => hne h.1)] at hstep
        exact ih a1 n1 i r u hnd.2 hmem hf hstep hp

theorem execCount_append (h : String) (l1 l2 : List Call) :
    execCount h (l1 ++ l2) = execCount h l1 + execCount h l2 := by
  simp [execCount, List.filter_append]

theorem flush_execCount (env : Env) (h : String) (us : List memory.User) :
    ∀ (a : Authenticator) (n : Int), (∀ x ∈ us, x.hash = h → x.sent = 0 ∧ x.recv = 0) →
      execCount h (us.foldl (flushUser env) (a, n)).1.db.calls = execCount h a.db.calls := by
  induction us with
  | nil => intro a n _; rfl
  | cons v vs ih =>
    intro a n hz
    rw [List.foldl_cons]
    have hstep := flushUser_calls env a n v
    cases hs : flushUser env (a, n) v with
    | mk a1 n1 =>
      rw [hs] at hstep
      rw [ih a1 n1 (fun x hx => hz x (List.mem_cons_of_mem _ hx)), hstep]
      split
      · rfl
      · rename_i hnz
        have hne : v.hash ≠ h := fun he => hnz (hz v (List.mem_cons_self _ _) he)
        rw [execCount_append]
        simp [execCount, Call.isExecFor, hne]

theorem memory.mem_writeBack (m : memory.Authenticator) (w x : memory.User) :
    x ∈ (m.writeBack w).users ↔ ∃ y ∈ m.users, (if y.hash = w.hash then w else y) = x := by
  simp [memory.Authenticator.writeBack, List.mem_map]

theorem memory.mem_DelUser (m : memory.Authenticator) (h : String) (x : memory.User) :
    x ∈ (m.DelUser h).users ↔ x ∈ m.users ∧ x.hash ≠ h := by
  simp [memory.Authenticator.DelUser]

theorem memory.writeBack_hash_mem (m : memory.Authenticator) (w : memory.User) (h : String) :
    (∃ x ∈ (m.writeBack w).users, x.hash = h) ↔ ∃ x ∈ m.users, x.hash = h := by
  rw [memory.exists_hash_iff, memory.writeBack_hashes, ← memory.exists_hash_iff]

theorem flushUser_absent (env : Env) (a : Authenticator) (n : Int) (v : memory.User) (h : String)
    (ha : ∀ x ∈ a.users, x.hash ≠ h) : ∀ x ∈ (flushUser env (a, n) v).1.users, x.hash ≠ h := by
  have hw : ∀ x ∈ (a.toAuthenticator.writeBack (cleared v)).users, x.hash ≠ h := by
    intro x hx he
    obtain ⟨y, hy, hyh⟩ := (memory.writeBack_hash_mem a.toAuthenticator (cleared v) h).mp ⟨x, hx, he⟩
    exact ha y hy hyh
  intro x hx
  change x ∈ (flushUser env (a, n) v).1.toAuthenticator.users at hx
  rw [flushUser_users] at hx
  split at hx
  · exact hw x ((memory.mem_DelUser _ _ _).mp hx).1
  · exact hw x hx

theorem flush_absent (env : Env) (h : String) (us : List memory.User) :
    ∀ (a : Authenticator) (n : Int), (∀ x ∈ a.users, x.hash ≠ h) →
      ∀ x ∈ (us.foldl (flushUser env) (a, n)).1.users, x.hash ≠ h := by
  induction us with
  | nil => intro a n ha; exact ha
  | cons v vs ih =>
    intro a n ha
    rw [List.foldl_cons]
    have hstep := flushUser_absent env a n v h ha
    cases hs : flushUser env (a, n) v with
    | mk a1 n1 =>
      rw [hs] at hstep
      exact ih a1 n1 hstep

theorem flushUser_no_row (env : Env) (a : Authenticator) (n : Int) (v : memory.User) (h : String)
    (ha : ∀ r ∈ a.db.users, r.password ≠ h) :
    ∀ r ∈ (flushUser env (a, n) v).1.db.users, r.password ≠ h := by
  rw [flushUser_table]
  split
  · exact ha
  · intro r hr
    rw [List.mem_map] at hr
    obtain ⟨r0, hr0, rfl⟩ := hr
    split
    · rw [credit_password]; exact ha r0 hr0
    · exact ha r0 hr0

theorem flush_evicts (env : Env) (us : List memory.User) :
    ∀ (a : Authenticator) (n : Int) (u : memory.User), u ∈ us →
      ¬ (u.sent = 0 ∧ u.recv = 0) → env.execFails u.hash = false →
      (∀ r ∈ a.db.users, r.password ≠ u.hash) →
      ∀ x ∈ (us.foldl (flushUser env) (a, n)).1.users, x.hash ≠ u.hash := by
  induction us with
  | nil => intro a n u hu; exact absurd hu (List.not_mem_nil _)
  | cons v vs ih =>
    intro a n u hu hz hf hrow
    rw [List.foldl_cons]
    have hnr := flushUser_no_row env a n v u.hash hrow
    have hus := flushUser_users env a n v
    cases hs : flushUser env (a, n) v with
    | mk a1 n1 =>
      rw [hs] at hnr hus
      rcases List.mem_cons.mp hu with rfl | hmem
      · apply flush_absent env u.hash vs a1 n1
        intro x hx
        change x ∈ a1.toAuthenticator.users at hx
        have hcond : ¬ (u.sent = 0 ∧ u.recv = 0) ∧ env.execFails u.hash = false ∧
            (∀ r ∈ a.db.users, r.password ≠ u.hash) := ⟨hz, hf, hrow⟩
        rw [hus, if_pos hcond] at hx
        exact ((memory.mem_DelUser _ _ _).mp hx).2
      · exact ih a1 n1 u hmem hz hf hnr

/-! ## Lookups after a cache operation -/

theorem memory.AuthUser_writeBack_other (m : memory.Authenticator) (w : memory.User) (h : String)
    (hne : w.hash ≠ h) : (m.writeBack w).AuthUser h = m.AuthUser h := by
  have key : ∀ l : List memory.User,
      (l.map (fun v => if v.hash = w.hash then w else v)).find? (fun u => u.hash == h) =
        l.find? (fun u => u.hash == h) := by
    intro l
    induction l with
    | nil => rfl
    | cons y ys ih =>
      rw [List.map_cons]
      by_cases hy : y.hash = w.hash
      · have h1 : (w.hash == h) = false := by simpa using hne
        have h2 : (y.hash == h) = false := by rw [hy]; exact h1
        rw [if_pos hy]
        simp only [List.find?_cons, h1, h2]
        exact ih
      · rw [if_neg hy]
        simp only [List.find?_cons]
        rw [ih]
  unfold memory.Authenticator.AuthUser memory.Authenticator.writeBack
  simp only [key]

theorem memory.AuthUser_writeBack_self (m : memory.Authenticator) (w : memory.User)
    (hin : ∃ x ∈ m.users, x.hash = w.hash) :
    (m.writeBack w).AuthUser w.hash = (true, some w) := by
  have key : ∀ l : List memory.User, (∃ x ∈ l, x.hash = w.hash) →
      (l.map (fun v => if v.hash = w.hash then w else v)).find? (fun u => u.hash == w.hash) =
        some w := by
    intro l
    induction l with
    | nil => rintro ⟨x, hx, _⟩; exact absurd hx (List.not_mem_nil _)
    | cons y ys ih =>
      intro hex
      rw [List.map_cons]
      by_cases hy : y.hash = w.hash
      · rw [if_pos hy]
        simp [List.find?_cons]
      · have hp : (y.hash == w.hash) = false := by simpa using hy
        rw [if_neg hy]
        simp only [List.find?_cons, hp]
        apply ih
        obtain ⟨x, hx, hxh⟩ := hex
        rcases List.mem_cons.mp hx with rfl | hx2
        · exact absurd hxh hy
        · exact ⟨x, hx2, hxh⟩
  unfold memory.Authenticator.AuthUser memory.Authenticator.writeBack
  simp only [key m.users hin]

theorem memory.AuthUser_DelUser_other (m : memory.Authenticator) (h2 h : String)
    (hne : h2 ≠ h) : (m.DelUser h2).AuthUser h = m.AuthUser h := by
  have key : ∀ l : List memory.User,
      (l.filter (fun u => u.hash != h2)).find? (fun u => u.hash == h) =
        l.find? (fun u => u.hash == h) := by
    intro l
    induction l with
    | nil => rfl
    | cons y ys ih =>
      by_cases hy : y.hash = h2
      · have hq : (y.hash != h2) = false := by simp [hy]
        have hp : (y.hash == h) = false := by rw [hy]; simpa using hne
        simp only [List.filter_cons, hq, List.find?_cons, hp]
        exact ih
      · have hq : (y.hash != h2) = true := by simpa using hy
        simp only [List.filter_cons, hq, if_true, List.find?_cons]
        rw [ih]
  unfold memory.Authenticator.AuthUser memory.Authenticator.DelUser
  simp only [key]

theorem memory.AuthUser_AddUser_other (m : memory.Authenticator) (h2 h : String)
    (hne : h2 ≠ h) : (m.AddUser h2).AuthUser h = m.AuthUser h := by
  unfold memory.Authenticator.AddUser
  split
  · rfl
  · unfold memory.Authenticator.AuthUser
    have hp : (h2 == h) = false := by simpa using hne
    simp only [List.find?_cons, hp]

theorem memory.AuthUser_DelUser_self (m : memory.Authenticator) (h : String) :
    (m.DelUser h).AuthUser h = (false, none) :=
  memory.AuthUser_of_not_mem _ _ (memory.DelUser_not_mem m h)

/-! ## The load loop -/

theorem loadRow_other (a : Authenticator) (row : Row) (h : String) (hne : row.password ≠ h) :
    (loadRow a row).toAuthenticator.AuthUser h = a.toAuthenticator.AuthUser h := by
  unfold loadRow
  split
  · simp only []
    split
    · rename_i u hl
      have hu : u.hash = row.password := by
        have hl2 : (a.toAuthenticator.AddUser row.password).AuthUser row.password = (true, some u) := hl
        unfold memory.Authenticator.AuthUser at hl2
        split at hl2
        · rename_i v hv
          have : v = u := by simpa using hl2
          subst this
          simpa using List.find?_some hv
        · simp at hl2
      have hw : (u.SetSpeedLimit row.speed_sent row.speed_recv).hash ≠ h := by
        change u.hash ≠ h
        rw [hu]; exact hne
      change ((a.toAuthenticator.AddUser row.password).writeBack _).AuthUser h = _
      rw [memory.AuthUser_writeBack_other _ _ _ hw, memory.AuthUser_AddUser_other _ _ _ hne]
    · exact memory.AuthUser_AddUser_other _ _ _ hne
  · exact memory.AuthUser_DelUser_other _ _ _ hne

theorem loadRow_self_admitted (a : Authenticator) (row : Row)
    (hc : wrapInt64 (row.download + row.upload) < row.quota ∨ row.quota ≤ 0) :
    ∃ u, (loadRow a row).toAuthenticator.AuthUser row.password = (true, some u) ∧
      u.hash = row.password ∧ u.speedSent = row.speed_sent ∧ u.speedRecv = row.speed_recv := by
  have hc2 : (decide (wrapInt64 (row.download + row.upload) < row.quota) ||
      decide (row.quota ≤ 0)) = true := by simpa using hc
  obtain ⟨u0, hu0, hh0, hl0⟩ :=
    memory.AuthUser_of_mem (a.toAuthenticator.AddUser row.password) row.password
      (memory.AddUser_mem a.toAuthenticator row.password)
  have hst : loadRow a row =
      (a.AddUser row.password).writeBack (u0.SetSpeedLimit row.speed_sent row.speed_recv) := by
    unfold loadRow
    rw [if_pos hc2]
    simp only []
    have hl1 : (a.AddUser row.password).toAuthenticator.AuthUser row.password = (true, some u0) := hl0
    rw [hl1]
  refine ⟨u0.SetSpeedLimit row.speed_sent row.speed_recv, ?_, hh0, rfl, rfl⟩
  rw [hst]
  have hself := memory.AuthUser_writeBack_self (a.toAuthenticator.AddUser row.password)
    (u0.SetSpeedLimit row.speed_sent row.speed_recv) ⟨u0, hu0, rfl⟩
  have hhash : (u0.SetSpeedLimit row.speed_sent row.speed_recv).hash = row.password := hh0
  rw [hhash] at hself
  exact hself

theorem loadRow_self_denied (a : Authenticator) (row : Row)
    (hc : ¬ (wrapInt64 (row.download + row.upload) < row.quota ∨ row.quota ≤ 0)) :
    (loadRow a row).toAuthenticator.AuthUser row.password = (false, none) := by
  have hc2 : ¬ (decide (wrapInt64 (row.download + row.upload) < row.quota) ||
      decide (row.quota ≤ 0)) = true := by simpa using hc
  unfold loadRow
  rw [if_neg hc2]
  exact memory.AuthUser_DelUser_self _ _

theorem loadRows_other (env : Env) (h : String) (rows : List Row) :
    ∀ a : Authenticator, (∀ r ∈ rows, r.password ≠ h) →
      (loadRows env rows a).toAuthenticator.AuthUser h = a.toAuthenticator.AuthUser h := by
  induction rows with
  | nil => intro a _; rfl
  | cons r rs ih =>
    intro a hne
    unfold loadRows
    unfold Scan
    split
    · rfl
    · rename_i row hrow
      have : row = r := by
        split at hrow
        · simp at hrow
        · simpa using hrow.symm
      subst this
      rw [ih _ (fun x hx => hne x (List.mem_cons_of_mem _ hx)),
        loadRow_other a row h (hne row (List.mem_cons_self _ _))]

theorem loadRows_sync (env : Env) (rows : List Row) :
    ∀ a : Authenticator, (∀ r ∈ rows, env.scanFails r = false) →
      (rows.map (fun r => r.password)).Nodup →
      ∀ r ∈ rows,
        ((wrapInt64 (r.download + r.upload) < r.quota ∨ r.quota ≤ 0) →
          ∃ u, (loadRows env rows a).toAuthenticator.AuthUser r.password = (true, some u) ∧
            u.hash = r.password ∧ u.speedSent = r.speed_sent ∧ u.speedRecv = r.speed_recv) ∧
        (¬ (wrapInt64 (r.download + r.upload) < r.quota ∨ r.quota ≤ 0) →
          (loadRows env rows a).toAuthenticator.AuthUser r.password = (false, none)) := by
  induction rows with
  | nil => intro a _ _ r hr; exact absurd hr (List.not_mem_nil _)
  | cons r0 rs ih =>
    intro a hs hnd r hr
    rw [List.map_cons, List.nodup_cons] at hnd
    have hstep : loadRows env (r0 :: rs) a = loadRows env rs (loadRow a r0) := by
      have h0 : Scan env r0 = some r0 := by
        simp [Scan, hs r0 (List.mem_cons_self _ _)]
      rw [loadRows, h0]
    rw [hstep]
    rcases List.mem_cons.mp hr with rfl | hmem
    · have hother : ∀ x ∈ rs, x.password ≠ r.password := by
        intro x hx he
        apply hnd.1
        rw [← he]
        exact List.mem_map_of_mem (fun r => r.password) hx
      rw [loadRows_other env r.password rs (loadRow a r) hother]
      exact ⟨loadRow_self_admitted a r, loadRow_self_denied a r⟩
    · exact ih (loadRow a r0) (fun x hx => hs x (List.mem_cons_of_mem _ hx)) hnd.2 r hmem

/-- C8 (counterexample). Two load phases whose query succeeds and whose single
row decodes. The row `rowOverflow` fails the admission policy (`quota > 0` and
`download + upload >= quota`), yet its hash is in the cache afterwards; the
row `rowUnderflow` passes the policy (`download + upload < quota`), yet its
hash, cached before, is absent afterwards. -/
theorem load_phase_overflow_counterexample :
    Env.ok.queryFails = false ∧
    ((∀ r ∈ (emptyCache [rowOverflow]).db.users, Env.ok.scanFails r = false) ∧
      ((emptyCache [rowOverflow]).db.users.map (fun r => r.password)).Nodup ∧
      rowOverflow ∈ (emptyCache [rowOverflow]).db.users ∧
      ¬ (rowOverflow.quota ≤ 0 ∨
          rowOverflow.download + rowOverflow.upload < rowOverflow.quota) ∧
      ((loadPhase Env.ok (emptyCache [rowOverflow])).1.toAuthenticator.AuthUser
        rowOverflow.password).1 = true) ∧
    ((∀ r ∈ (cached [⟨"u1", 0, 0, 0, 0⟩] [rowUnderflow]).db.users, Env.ok.scanFails r = false) ∧
      ((cached [⟨"u1", 0, 0, 0, 0⟩] [rowUnderflow]).db.users.map (fun r => r.password)).Nodup ∧
      rowUnderflow ∈ (cached [⟨"u1", 0, 0, 0, 0⟩] [rowUnderflow]).db.users ∧
      inInt64 rowUnderflow.quota ∧ inInt64 rowUnderflow.download ∧ inInt64 rowUnderflow.upload ∧
      (rowUnderflow.quota ≤ 0 ∨
          rowUnderflow.download + rowUnderflow.upload < rowUnderflow.quota) ∧
      (loadPhase Env.ok (cached [⟨"u1", 0, 0, 0, 0⟩] [rowUnderflow])).1.toAuthenticator.AuthUser
        rowUnderflow.password = (false, none)) := by
  decide

/-- C8 (amended). After a load phase whose query succeeds and whose rows all
decode, over a table with unique passwords, for every row: if `quota <= 0` or
the `int64` (wrap-around) sum `download + upload` is below `quota`, the hash is
in the cache and the cached user's speed limits are the row's
`(speed_sent, speed_recv)`; otherwise the hash is absent from the cache. For a
row with `quota <= 0`, or whose exact sum `download + upload` is an `int64`
value, the same holds with the admission policy `quota <= 0` or
`download + upload < quota` in place of that test. -/
theorem load_phase_sync (env : Env) (a : Authenticator)
    (hq : env.queryFails = false) (hs : ∀ r ∈ a.db.users, env.scanFails r = false)
    (hnd : (a.db.users.map (fun r => r.password)).Nodup) :
    (loadPhase env a).2 = true ∧
    ∀ r ∈ a.db.users,
      (((wrapInt64 (r.download + r.upload) < r.quota ∨ r.quota ≤ 0) →
          ∃ u, (loadPhase env a).1.toAuthenticator.AuthUser r.password = (true, some u) ∧
            u.hash = r.password ∧ u.speedSent = r.speed_sent ∧ u.speedRecv = r.speed_recv) ∧
        (¬ (wrapInt64 (r.download + r.upload) < r.quota ∨ r.quota ≤ 0) →
          (loadPhase env a).1.toAuthenticator.AuthUser r.password = (false, none))) ∧
      ((inInt64 (r.download + r.upload) ∨ r.quota ≤ 0) →
        ((r.quota ≤ 0 ∨ r.download + r.upload < r.quota) →
          ∃ u, (loadPhase env a).1.toAuthenticator.AuthUser r.password = (true, some u) ∧
            u.hash = r.password ∧ u.speedSent = r.speed_sent ∧ u.speedRecv = r.speed_recv) ∧
        (¬ (r.quota ≤ 0 ∨ r.download + r.upload < r.quota) →
          (loadPhase env a).1.toAuthenticator.AuthUser r.password = (false, none))) := by
  have hl : loadPhase env a =
      (loadRows env a.db.users { a with db := { a.db with calls := a.db.calls ++ [Call.query] } },
       true) := by
    simp [loadPhase, DB.Query, hq]
  rw [hl]
  refine ⟨rfl, ?_⟩
  intro r hr
  have hsync := loadRows_sync env a.db.users
    { a with db := { a.db with calls := a.db.calls ++ [Call.query] } } hs hnd r hr
  refine ⟨hsync, ?_⟩
  intro hrange
  have hiff : (r.quota ≤ 0 ∨ r.download + r.upload < r.quota) ↔
      (wrapInt64 (r.download + r.upload) < r.quota ∨ r.quota ≤ 0) := by
    rcases hrange with hsum | h0
    · rw [wrapInt64_of_inInt64 _ hsum, or_comm]
    · exact ⟨fun _ => Or.inr h0, fun _ => Or.inl h0⟩
  exact ⟨fun hp => hsync.1 (hiff.mp hp), fun hn => hsync.2 (fun hw => hn (hiff.mpr hw))⟩

theorem flush_passwords (env : Env) (us : List memory.User) :
    ∀ (a : Authenticator) (n : Int),
      (us.foldl (flushUser env) (a, n)).1.db.users.map (fun r => r.password) =
        a.db.users.map (fun r => r.password) := by
  induction us with
  | nil => intro a n; rfl
  | cons v vs ih =>
    intro a n
    rw [List.foldl_cons]
    have hstep := flushUser_table env a n v
    cases hs : flushUser env (a, n) v with
    | mk a1 n1 =>
      rw [hs] at hstep
      rw [ih a1 n1, hstep]
      split
      · rfl
      · rw [List.map_map]
        apply List.map_congr_left
        intro r _
        simp only [Function.comp]
        split <;> rfl

/-- C5. In the flush phase over a cache with unique hashes: (1) for every
cached user whose update does not fail, each table row of that hash ends with
`upload` grown by the user's received counter and `download` grown by its
sent counter, its other columns unchanged; (2) rows whose hash belongs to no
cached user are unchanged, and one iteration leaves the rows of every other
hash unchanged; (3) no row is added or removed; (4) for a user whose two
counters are zero no `UPDATE` is issued. -/
theorem flush_phase_accounting (env : Env) (a : Authenticator)
    (hnd : (a.users.map (fun v => v.hash)).Nodup) :
    (∀ u ∈ a.users, env.execFails u.hash = false →
      ∀ (i : Nat) (r : Row), a.db.users[i]? = some r → r.password = u.hash →
        ∃ r2, (flushPhase env a).1.db.users[i]? = some r2 ∧
          r2.upload = r.upload + (u.recv : Int) ∧ r2.download = r.download + (u.sent : Int) ∧
          r2.quota = r.quota ∧ r2.speed_sent = r.speed_sent ∧ r2.speed_recv = r.speed_recv ∧
          r2.password = r.password) ∧
    ((∀ (i : Nat) (r : Row), a.db.users[i]? = some r → (∀ u ∈ a.users, u.hash ≠ r.password) →
        (flushPhase env a).1.db.users[i]? = some r) ∧
      (∀ (n : Int) (v : memory.User) (i : Nat) (r : Row), a.db.users[i]? = some r →
        r.password ≠ v.hash → (flushUser env (a, n) v).1.db.users[i]? = some r)) ∧
    ((flushPhase env a).1.db.users.map (fun r => r.password) =
      a.db.users.map (fun r => r.password)) ∧
    (∀ u ∈ a.users, u.sent = 0 → u.recv = 0 →
      execCount u.hash (flushPhase env a).1.db.calls = execCount u.hash a.db.calls) := by
  refine ⟨?_, ⟨?_, ?_⟩, ?_, ?_⟩
  · intro u hu hf i r hr hp
    refine ⟨credit u r, ?_, rfl, rfl, rfl, rfl, rfl, rfl⟩
    exact flush_row_credited env a.users a 0 i r u hnd hu hf hr hp
  · intro i r hr hno
    apply flush_row_untouched env a.users a 0 i r hr
    intro x hx he
    exact absurd he (hno x hx)
  · intro n v i r hr hne
    rw [flushUser_row env a n v i r hr, if_neg (fun h => hne h.1)]
  · exact flush_passwords env a.users a 0
  · intro u hu h1 h2
    apply flush_execCount env u.hash a.users a 0
    intro x hx he
    have : x = u := by
      have hinj := List.inj_on_of_nodup_map hnd
      exact hinj hx hu he
    rw [this]
    exact ⟨h1, h2⟩

/-- Witness of `flush_phase_accounting`: user `u1` sent 600 and received 500;
the cache also holds an idle user. -/
theorem flush_phase_accounting_witness :
    ((cached [⟨"u1", 600, 500, 0, 0⟩, ⟨"u2", 0, 0, 0, 0⟩] [rowU1]).users.map
      (fun v => v.hash)).Nodup ∧
    ((flushPhase Env.ok (cached [⟨"u1", 600, 500, 0, 0⟩, ⟨"u2", 0, 0, 0, 0⟩] [rowU1])).1.db.users.map
      (fun r => r.password) =
      (cached [⟨"u1", 600, 500, 0, 0⟩, ⟨"u2", 0, 0, 0, 0⟩] [rowU1]).db.users.map
        (fun r => r.password)) ∧
    (flushPhase Env.ok (cached [⟨"u1", 600, 500, 0, 0⟩, ⟨"u2", 0, 0, 0, 0⟩] [rowU1])).1.db.users =
      [{ rowU1 with upload := 500, download := 600 }] :=
  ⟨by decide,
   (flush_phase_accounting Env.ok (cached [⟨"u1", 600, 500, 0, 0⟩, ⟨"u2", 0, 0, 0, 0⟩] [rowU1])
     (by decide)).2.2.1,
   by decide⟩

theorem flush_no_row (env : Env) (h : String) (us : List memory.User) :
    ∀ (a : Authenticator) (n : Int), (∀ r ∈ a.db.users, r.password ≠ h) →
      ∀ r ∈ (us.foldl (flushUser env) (a, n)).1.db.users, r.password ≠ h := by
  intro a n ha r hr
  have hp := flush_passwords env us a n
  intro he
  have hm : h ∈ (us.foldl (flushUser env) (a, n)).1.db.users.map (fun r => r.password) := by
    rw [← he]
    exact List.mem_map_of_mem (fun r => r.password) hr
  rw [hp, List.mem_map] at hm
  obtain ⟨r0, hr0, hr0p⟩ := hm
  exact ha r0 hr0 hr0p

theorem loadPhase_other (env : Env) (a : Authenticator) (h : String)
    (hrow : ∀ r ∈ a.db.users, r.password ≠ h) :
    (loadPhase env a).1.toAuthenticator.AuthUser h = a.toAuthenticator.AuthUser h := by
  unfold loadPhase DB.Query
  simp only []
  split
  · rename_i db1 hq
    split at hq
    · rfl
    · simp at hq
  · rename_i rows db1 hq
    split at hq
    · simp at hq
    · have hrows : rows = a.db.users := by
        simp only [Prod.mk.injEq, Option.some.injEq] at hq
        exact hq.1.symm
      rw [hrows]
      exact loadRows_other env h a.db.users _ hrow

/-- C6 (counterexample). An idle cached user (both counters zero) whose row is
not in the table is still cached after a full cycle without any database
error; the flush phase issued no `UPDATE` for it. -/
theorem idle_deleted_user_stays :
    (∀ r ∈ (cached [⟨"u1", 0, 0, 0, 0⟩] []).db.users, r.password ≠ "u1") ∧
    (cycle Env.ok (cached [⟨"u1", 0, 0, 0, 0⟩] [])).2 = true ∧
    (cycle Env.ok (cached [⟨"u1", 0, 0, 0, 0⟩] [])).1.toAuthenticator.AuthUser "u1" =
      (true, some ⟨"u1", 0, 0, 0, 0⟩) ∧
    execCount "u1" (cycle Env.ok (cached [⟨"u1", 0, 0, 0, 0⟩] [])).1.db.calls = 0 := by
  decide

/-- C6 (amended). A cached user with a non-zero traffic delta whose row is not
in the table, and whose `UPDATE` does not fail, is evicted by the flush phase
and is absent from the cache at the end of the cycle. -/
theorem cycle_evicts_deleted (env : Env) (a : Authenticator) (u : memory.User)
    (hu : u ∈ a.users) (hz : ¬ (u.sent = 0 ∧ u.recv = 0))
    (hf : env.execFails u.hash = false) (hrow : ∀ r ∈ a.db.users, r.password ≠ u.hash) :
    (flushPhase env a).1.toAuthenticator.AuthUser u.hash = (false, none) ∧
    (cycle env a).1.toAuthenticator.AuthUser u.hash = (false, none) := by
  have h1 : (flushPhase env a).1.toAuthenticator.AuthUser u.hash = (false, none) :=
    memory.AuthUser_of_not_mem _ _ (flush_evicts env a.users a 0 u hu hz hf hrow)
  refine ⟨h1, ?_⟩
  have h2 : ∀ r ∈ (flushPhase env a).1.db.users, r.password ≠ u.hash :=
    flush_no_row env u.hash a.users a 0 hrow
  unfold cycle
  rw [loadPhase_other env _ u.hash h2]
  exact h1

/-- Witness of `cycle_evicts_deleted`. -/
theorem cycle_evicts_deleted_witness :
    (⟨"u1", 600, 500, 0, 0⟩ : memory.User) ∈ (cached [⟨"u1", 600, 500, 0, 0⟩] []).users ∧
    (cycle Env.ok (cached [⟨"u1", 600, 500, 0, 0⟩] [])).1.toAuthenticator.AuthUser "u1" =
      (false, none) :=
  ⟨List.mem_cons_self _ _,
   (cycle_evicts_deleted Env.ok (cached [⟨"u1", 600, 500, 0, 0⟩] []) ⟨"u1", 600, 500, 0, 0⟩
     (List.mem_cons_self _ _) (by decide) rfl (by decide)).2⟩

/-! ## Cleared counters -/

theorem flushUser_mem (env : Env) (a : Authenticator) (n : Int) (v x : memory.User)
    (hx : x ∈ (flushUser env (a, n) v).1.users) :
    ∃ y ∈ a.users, (if y.hash = v.hash then cleared v else y) = x := by
  change x ∈ (flushUser env (a, n) v).1.toAuthenticator.users at hx
  rw [flushUser_users] at hx
  split at hx
  · have := ((memory.mem_DelUser _ _ _).mp hx).1
    rw [memory.mem_writeBack] at this
    exact this
  · rw [memory.mem_writeBack] at hx
    exact hx

theorem flushUser_cleared_pres (env : Env) (a : Authenticator) (n : Int) (v : memory.User)
    (h : String) (hz : ∀ x ∈ a.users, x.hash = h → x.sent = 0 ∧ x.recv = 0) :
    ∀ x ∈ (flushUser env (a, n) v).1.users, x.hash = h → x.sent = 0 ∧ x.recv = 0 := by
  intro x hx he
  obtain ⟨y, hy, hyx⟩ := flushUser_mem env a n v x hx
  split at hyx
  · rw [← hyx]; exact ⟨rfl, rfl⟩
  · rw [← hyx] at he ⊢
    exact hz y hy he

theorem flushUser_cleared_self (env : Env) (a : Authenticator) (n : Int) (v : memory.User) :
    ∀ x ∈ (flushUser env (a, n) v).1.users, x.hash = v.hash → x.sent = 0 ∧ x.recv = 0 := by
  intro x hx he
  obtain ⟨y, hy, hyx⟩ := flushUser_mem env a n v x hx
  split at hyx
  · rw [← hyx]; exact ⟨rfl, rfl⟩
  · rename_i hne
    rw [← hyx] at he
    exact absurd he hne

theorem flush_cleared_pres (env : Env) (h : String) (us : List memory.User) :
    ∀ (a : Authenticator) (n : Int), (∀ x ∈ a.users, x.hash = h → x.sent = 0 ∧ x.recv = 0) →
      ∀ x ∈ (us.foldl (flushUser env) (a, n)).1.users, x.hash = h → x.sent = 0 ∧ x.recv = 0 := by
  induction us with
  | nil => intro a n hz; exact hz
  | cons v vs ih =>
    intro a n hz
    rw [List.foldl_cons]
    have hstep := flushUser_cleared_pres env a n v h hz
    cases hs : flushUser env (a, n) v with
    | mk a1 n1 =>
      rw [hs] at hstep
      exact ih a1 n1 hstep

theorem flush_cleared (env : Env) (us : List memory.User) :
    ∀ (a : Authenticator) (n : Int) (u : memory.User), u ∈ us →
      ∀ x ∈ (us.foldl (flushUser env) (a, n)).1.users, x.hash = u.hash →
        x.sent = 0 ∧ x.recv = 0 := by
  induction us with
  | nil => intro a n u hu; exact absurd hu (List.not_mem_nil _)
  | cons v vs ih =>
    intro a n u hu
    rw [List.foldl_cons]
    have hstep := flushUser_cleared_self env a n v
    cases hs : flushUser env (a, n) v with
    | mk a1 n1 =>
      rw [hs] at hstep
      rcases List.mem_cons.mp hu with rfl | hmem
      · exact flush_cleared_pres env u.hash vs a1 n1 hstep
      · exact ih a1 n1 u hmem

theorem flush_key_kept (env : Env) (h : String) (hf : env.execFails h = true)
    (us : List memory.User) :
    ∀ (a : Authenticator) (n : Int), (∃ x ∈ a.users, x.hash = h) →
      ∃ x ∈ (us.foldl (flushUser env) (a, n)).1.users, x.hash = h := by
  induction us with
  | nil => intro a n hex; exact hex
  | cons v vs ih =>
    intro a n hex
    rw [List.foldl_cons]
    have hus := flushUser_users env a n v
    have hw := (memory.writeBack_hash_mem a.toAuthenticator (cleared v) h).mpr hex
    cases hs : flushUser env (a, n) v with
    | mk a1 n1 =>
      rw [hs] at hus
      apply ih a1 n1
      change ∃ x ∈ a1.toAuthenticator.users, x.hash = h
      rw [hus]
      split
      · rename_i hc
        obtain ⟨x, hx, hxh⟩ := hw
        refine ⟨x, (memory.mem_DelUser _ _ _).mpr ⟨hx, ?_⟩, hxh⟩
        intro he
        rw [hxh] at he
        rw [he, hc.2.1] at hf
        exact absurd hf (by simp)
      · exact hw

theorem flush_hashes (env : Env) (hf : ∀ h, env.execFails h = true) (us : List memory.User) :
    ∀ (a : Authenticator) (n : Int),
      (us.foldl (flushUser env) (a, n)).1.users.map (fun v => v.hash) =
        a.users.map (fun v => v.hash) := by
  induction us with
  | nil => intro a n; rfl
  | cons v vs ih =>
    intro a n
    rw [List.foldl_cons]
    have hus := flushUser_users env a n v
    cases hs : flushUser env (a, n) v with
    | mk a1 n1 =>
      rw [hs] at hus
      rw [ih a1 n1]
      change a1.toAuthenticator.users.map _ = _
      have hcond : ¬ (¬ (v.sent = 0 ∧ v.recv = 0) ∧ env.execFails v.hash = false ∧
          (∀ r ∈ a.db.users, r.password ≠ v.hash)) := by
        intro hc
        have := hf v.hash
        rw [hc.2.1] at this
        exact absurd this (by simp)
      rw [hus, if_neg hcond]
      exact memory.writeBack_hashes _ _

theorem loadRow_cleared (a : Authenticator) (row : Row) (h : String)
    (hz : ∀ x ∈ a.users, x.hash = h → x.sent = 0 ∧ x.recv = 0) :
    ∀ x ∈ (loadRow a row).users, x.hash = h → x.sent = 0 ∧ x.recv = 0 := by
  have hadd : ∀ x ∈ (a.toAuthenticator.AddUser row.password).users,
      x.hash = h → x.sent = 0 ∧ x.recv = 0 := by
    intro x hx he
    unfold memory.Authenticator.AddUser at hx
    split at hx
    · exact hz x hx he
    · rcases List.mem_cons.mp hx with rfl | hx2
      · exact ⟨rfl, rfl⟩
      · exact hz x hx2 he
  unfold loadRow
  split
  · simp only []
    split
    · rename_i u hl
      have hl2 : (a.toAuthenticator.AddUser row.password).AuthUser row.password = (true, some u) := hl
      have hu : u ∈ (a.toAuthenticator.AddUser row.password).users := by
        unfold memory.Authenticator.AuthUser at hl2
        split at hl2
        · rename_i v hv
          have : v = u := by simpa using hl2
          subst this
          exact List.mem_of_find?_eq_some hv
        · simp at hl2
      intro x hx he
      change x ∈ ((a.toAuthenticator.AddUser row.password).writeBack
        (u.SetSpeedLimit row.speed_sent row.speed_recv)).users at hx
      rw [memory.mem_writeBack] at hx
      obtain ⟨y, hy, hyx⟩ := hx
      split at hyx
      · rw [← hyx] at he ⊢
        exact hadd u hu he
      · rw [← hyx] at he ⊢
        exact hadd y hy he
    · exact hadd
  · intro x hx he
    exact hz x ((memory.mem_DelUser _ _ _).mp hx).1 he

theorem loadRows_cleared (env : Env) (h : String) (rows : List Row) :
    ∀ a : Authenticator, (∀ x ∈ a.users, x.hash = h → x.sent = 0 ∧ x.recv = 0) →
      ∀ x ∈ (loadRows env rows a).users, x.hash = h → x.sent = 0 ∧ x.recv = 0 := by
  induction rows with
  | nil => intro a hz; exact hz
  | cons r rs ih =>
    intro a hz
    unfold loadRows
    split
    · exact hz
    · rename_i row _
      exact ih _ (loadRow_cleared a row h hz)

theorem loadPhase_cleared (env : Env) (a : Authenticator) (h : String)
    (hz : ∀ x ∈ a.users, x.hash = h → x.sent = 0 ∧ x.recv = 0) :
    ∀ x ∈ (loadPhase env a).1.users, x.hash = h → x.sent = 0 ∧ x.recv = 0 := by
  unfold loadPhase
  split
  · exact hz
  · exact loadRows_cleared env h _ _ hz

theorem flush_calls_mono (env : Env) (c : Call) (us : List memory.User) :
    ∀ (a : Authenticator) (n : Int), c ∈ a.db.calls →
      c ∈ (us.foldl (flushUser env) (a, n)).1.db.calls := by
  induction us with
  | nil => intro a n hc; exact hc
  | cons v vs ih =>
    intro a n hc
    rw [List.foldl_cons]
    have hstep := flushUser_calls env a n v
    cases hs : flushUser env (a, n) v with
    | mk a1 n1 =>
      rw [hs] at hstep
      apply ih a1 n1
      rw [hstep]
      split
      · exact hc
      · exact List.mem_append_left _ hc

theorem flush_issues (env : Env) (us : List memory.User) :
    ∀ (a : Authenticator) (n : Int) (u : memory.User), u ∈ us → ¬ (u.sent = 0 ∧ u.recv = 0) →
      Call.exec u.recv u.sent u.hash ∈ (us.foldl (flushUser env) (a, n)).1.db.calls := by
  induction us with
  | nil => intro a n u hu; exact absurd hu (List.not_mem_nil _)
  | cons v vs ih =>
    intro a n u hu hz
    rw [List.foldl_cons]
    have hstep := flushUser_calls env a n v
    cases hs : flushUser env (a, n) v with
    | mk a1 n1 =>
      rw [hs] at hstep
      rcases List.mem_cons.mp hu with rfl | hmem
      · apply flush_calls_mono env _ vs a1 n1
        rw [hstep, if_neg hz]
        exact List.mem_append_right _ (List.mem_singleton_self _)
      · exact ih a1 n1 u hmem hz

/-- C7. For a cached user with a non-zero traffic delta whose `UPDATE` fails:
the flush phase issues that `UPDATE`, keeps the user in the cache with both
counters at zero, and leaves the table rows of its hash unchanged; the flush
phase of the next cycle, whatever fails then, issues no `UPDATE` for that hash
and leaves the rows of that hash unchanged. -/
theorem flush_failure_drops_delta (env env2 : Env) (a : Authenticator) (u : memory.User)
    (hu : u ∈ a.users) (hz : ¬ (u.sent = 0 ∧ u.recv = 0))
    (hf : env.execFails u.hash = true) :
    Call.exec u.recv u.sent u.hash ∈ (flushPhase env a).1.db.calls ∧
    (∃ u2, (flushPhase env a).1.toAuthenticator.AuthUser u.hash = (true, some u2) ∧
      u2.sent = 0 ∧ u2.recv = 0) ∧
    (∀ (i : Nat) (r : Row), a.db.users[i]? = some r → r.password = u.hash →
      (flushPhase env a).1.db.users[i]? = some r) ∧
    execCount u.hash (flushPhase env2 (cycle env a).1).1.db.calls =
      execCount u.hash (cycle env a).1.db.calls ∧
    (∀ (i : Nat) (r : Row), (cycle env a).1.db.users[i]? = some r → r.password = u.hash →
      (flushPhase env2 (cycle env a).1).1.db.users[i]? = some r) := by
  have hzero : ∀ x ∈ (flushPhase env a).1.users, x.hash = u.hash → x.sent = 0 ∧ x.recv = 0 :=
    flush_cleared env a.users a 0 u hu
  have hzero2 : ∀ x ∈ (cycle env a).1.users, x.hash = u.hash → x.sent = 0 ∧ x.recv = 0 :=
    loadPhase_cleared env (flushPhase env a).1 u.hash hzero
  refine ⟨flush_issues env a.users a 0 u hu hz, ?_, ?_, ?_, ?_⟩
  · have hk : ∃ x ∈ (flushPhase env a).1.users, x.hash = u.hash :=
      flush_key_kept env u.hash hf a.users a 0 ⟨u, hu, rfl⟩
    obtain ⟨u2, hu2, hh2, hl2⟩ := memory.AuthUser_of_mem (flushPhase env a).1.toAuthenticator u.hash hk
    exact ⟨u2, hl2, hzero u2 hu2 hh2⟩
  · intro i r hr hp
    apply flush_row_untouched env a.users a 0 i r hr
    intro x _ he
    right
    rw [he, hp]
    exact hf
  · exact flush_execCount env2 u.hash (cycle env a).1.users (cycle env a).1 0 hzero2
  · intro i r hr hp
    apply flush_row_untouched env2 (cycle env a).1.users (cycle env a).1 0 i r hr
    intro x hx he
    left
    exact hzero2 x hx (by rw [he, hp])

/-- Witness of `flush_failure_drops_delta`: every `UPDATE` fails in the first
cycle and none fails in the second. -/
theorem flush_failure_drops_delta_witness :
    (⟨"u1", 600, 500, 0, 0⟩ : memory.User) ∈ (cached [⟨"u1", 600, 500, 0, 0⟩] [rowU1]).users ∧
    (∀ (i : Nat) (r : Row),
      (cycle { Env.ok with execFails := fun _ => true }
        (cached [⟨"u1", 600, 500, 0, 0⟩] [rowU1])).1.db.users[i]? = some r →
      r.password = "u1" →
      (flushPhase Env.ok (cycle { Env.ok with execFails := fun _ => true }
        (cached [⟨"u1", 600, 500, 0, 0⟩] [rowU1])).1).1.db.users[i]? = some r) ∧
    (flushPhase Env.ok (cycle { Env.ok with execFails := fun _ => true }
        (cached [⟨"u1", 600, 500, 0, 0⟩] [rowU1])).1).1.db.users = [rowU1] :=
  ⟨List.mem_cons_self _ _,
   (flush_failure_drops_delta { Env.ok with execFails := fun _ => true } Env.ok
     (cached [⟨"u1", 600, 500, 0, 0⟩] [rowU1]) ⟨"u1", 600, 500, 0, 0⟩
     (List.mem_cons_self _ _) (by decide) rfl).2.2.2.2,
   by decide⟩

/-- C9. In a cycle in which every `UPDATE` and the load query fail, the rows
are not read (the cache is the one the flush phase left), the table is
unchanged, and the hashes in the cache are those held before the cycle. -/
theorem cycle_store_unreachable (env : Env) (a : Authenticator)
    (hf : ∀ h, env.execFails h = true) (hq : env.queryFails = true) :
    (cycle env a).2 = false ∧
    (cycle env a).1.toAuthenticator = (flushPhase env a).1.toAuthenticator ∧
    (cycle env a).1.db.users = a.db.users ∧
    (cycle env a).1.users.map (fun v => v.hash) = a.users.map (fun v => v.hash) := by
  have hl : cycle env a =
      ({ (flushPhase env a).1 with
          db := { (flushPhase env a).1.db with
                  calls := (flushPhase env a).1.db.calls ++ [Call.query] } }, false) := by
    simp [cycle, loadPhase, DB.Query, hq]
  have htab : (flushPhase env a).1.db.users = a.db.users := by
    apply List.ext_getElem?
    intro i
    cases hr : a.db.users[i]? with
    | some r =>
      exact flush_row_untouched env a.users a 0 i r hr (fun x _ _ => Or.inr (hf x.hash))
    | none =>
      have hlen : (flushPhase env a).1.db.users.length = a.db.users.length := by
        have := congrArg List.length (flush_passwords env a.users a 0)
        simpa using this
      rw [List.getElem?_eq_none_iff] at hr ⊢
      rw [hlen]
      exact hr
  rw [hl]
  exact ⟨rfl, rfl, htab, flush_hashes env hf a.users a 0⟩

/-- Witness of `cycle_store_unreachable`. -/
theorem cycle_store_unreachable_witness :
    (∀ h, ({ Env.ok with execFails := fun _ => true, queryFails := true } : Env).execFails h
      = true) ∧
    (cycle { Env.ok with execFails := fun _ => true, queryFails := true }
      (cached [⟨"u1", 600, 500, 0, 0⟩, ⟨"u2", 0, 0, 0, 0⟩] [rowU1])).1.users.map (fun v => v.hash)
      = ["u1", "u2"] :=
  ⟨fun _ => rfl,
   (cycle_store_unreachable { Env.ok with execFails := fun _ => true, queryFails := true }
     (cached [⟨"u1", 600, 500, 0, 0⟩, ⟨"u2", 0, 0, 0, 0⟩] [rowU1]) (fun _ => rfl) rfl).2.2.2⟩

/-- Witness of `load_phase_sync`: row `"u1"` is under its quota and row `"u2"`,
cached before, is at its quota. -/
theorem load_phase_sync_witness :
    ((cached [⟨"u2", 0, 0, 0, 0⟩]
        [rowU1, { rowAtQuota with password := "u2" }]).db.users.map
      (fun r => r.password)).Nodup ∧
    (inInt64 (rowAtQuota.download + rowAtQuota.upload) ∨ rowAtQuota.quota ≤ 0) ∧
    ¬ (rowAtQuota.quota ≤ 0 ∨ rowAtQuota.download + rowAtQuota.upload < rowAtQuota.quota) ∧
    (loadPhase Env.ok (cached [⟨"u2", 0, 0, 0, 0⟩]
        [rowU1, { rowAtQuota with password := "u2" }])).1.toAuthenticator.AuthUser "u2" =
      (false, none) ∧
    (loadPhase Env.ok (cached [⟨"u2", 0, 0, 0, 0⟩]
        [rowU1, { rowAtQuota with password := "u2" }])).1.users = [⟨"u1", 0, 0, 5, 7⟩] :=
  ⟨by decide, by decide, by decide,
   (((load_phase_sync Env.ok (cached [⟨"u2", 0, 0, 0, 0⟩]
      [rowU1, { rowAtQuota with password := "u2" }]) rfl (by decide) (by decide)).2
      { rowAtQuota with password := "u2" } (by decide)).2 (by decide)).2 (by decide),
   by decide⟩

/-! ## The loop -/

theorem updater_exits_on_cancel (env : Env) (w : Wait) (rest : List (Env × Wait))
    (a : Authenticator) (hq : (cycle env a).2 = true)
    (hc : w.ctxDone = true) (ht : w.tickReady = false) :
    updater ((env, w) :: rest) a = ((cycle env a).1, 1, true) := by
  have hsel : w.select = Select.done := by simp [Wait.select, hc, ht]
  cases hcy : cycle env a with
  | mk a1 b =>
    rw [hcy] at hq
    simp only at hq
    subst hq
    simp [updater, hcy, hsel]

theorem updater_query_down (script : List (Env × Wait)) :
    ∀ a : Authenticator, (∀ e ∈ script, e.1.queryFails = true) →
      (updater script a).2 = (script.length, false) := by
  induction script with
  | nil => intro a _; rfl
  | cons e es ih =>
    intro a h
    obtain ⟨env, w⟩ := e
    have hq : env.queryFails = true := h (env, w) (List.mem_cons_self _ _)
    have hcy : cycle env a =
        ({ (flushPhase env a).1 with
            db := { (flushPhase env a).1.db with
                    calls := (flushPhase env a).1.db.calls ++ [Call.query] } }, false) := by
      simp [cycle, loadPhase, DB.Query, hq]
    have := ih { (flushPhase env a).1 with
            db := { (flushPhase env a).1.db with
                    calls := (flushPhase env a).1.db.calls ++ [Call.query] } }
        (fun e he => h e (List.mem_cons_of_mem _ he))
    simp only [updater, hcy, List.length_cons]
    rw [Prod.ext_iff] at this ⊢
    simp only at this ⊢
    exact ⟨by rw [this.1], this.2⟩

/-- C10 (code at the failing input). The load query of the first cycle fails
while the context is already cancelled: `updater` starts a second cycle,
queries the table again, and returns only at the end of that cycle; with a
first cycle whose query succeeds it returns after one cycle. -/
theorem updater_restarts_after_cancel :
    Wait.cancelled.ctxDone = true ∧
    (cycle Env.queryDown (cached [⟨"u1", 0, 0, 0, 0⟩] [rowU1])).2 = false ∧
    (updater [(Env.queryDown, Wait.cancelled), (Env.ok, Wait.cancelled)]
      (cached [⟨"u1", 0, 0, 0, 0⟩] [rowU1])).2 = (2, true) ∧
    (updater [(Env.queryDown, Wait.cancelled), (Env.ok, Wait.cancelled)]
      (cached [⟨"u1", 0, 0, 0, 0⟩] [rowU1])).1.db.calls = [Call.query, Call.query] ∧
    (updater [(Env.queryDown, Wait.cancelled), (Env.ok, Wait.cancelled)]
      (cached [⟨"u1", 0, 0, 0, 0⟩] [rowU1])).1.users = [⟨"u1", 0, 0, 5, 7⟩] ∧
    (updater [(Env.ok, Wait.cancelled), (Env.ok, Wait.cancelled)]
      (cached [⟨"u1", 0, 0, 0, 0⟩] [rowU1])).2 = (1, true) := by
  decide

/-! ## Unique hashes in the cache -/

theorem memory.AddUser_nodup (m : memory.Authenticator) (h : String)
    (hnd : (m.users.map (fun v => v.hash)).Nodup) :
    ((m.AddUser h).users.map (fun v => v.hash)).Nodup := by
  unfold memory.Authenticator.AddUser
  split
  · exact hnd
  · rename_i hany
    rw [List.map_cons, List.nodup_cons]
    refine ⟨?_, hnd⟩
    intro hmem
    apply hany
    rw [List.mem_map] at hmem
    obtain ⟨x, hx, hxh⟩ := hmem
    rw [List.any_eq_true]
    exact ⟨x, hx, by simpa using hxh⟩

theorem memory.DelUser_nodup (m : memory.Authenticator) (h : String)
    (hnd : (m.users.map (fun v => v.hash)).Nodup) :
    ((m.DelUser h).users.map (fun v => v.hash)).Nodup := by
  unfold memory.Authenticator.DelUser
  exact hnd.sublist (List.Sublist.map _ (List.filter_sublist _))

theorem memory.writeBack_nodup (m : memory.Authenticator) (w : memory.User)
    (hnd : (m.users.map (fun v => v.hash)).Nodup) :
    ((m.writeBack w).users.map (fun v => v.hash)).Nodup := by
  rw [memory.writeBack_hashes]
  exact hnd

theorem loadRow_nodup (a : Authenticator) (row : Row)
    (hnd : (a.users.map (fun v => v.hash)).Nodup) :
    ((loadRow a row).users.map (fun v => v.hash)).Nodup := by
  unfold loadRow
  split
  · simp only []
    split
    · exact memory.writeBack_nodup _ _ (memory.AddUser_nodup _ _ hnd)
    · exact memory.AddUser_nodup _ _ hnd
  · exact memory.DelUser_nodup _ _ hnd

theorem loadRows_nodup (env : Env) (rows : List Row) :
    ∀ a : Authenticator, (a.users.map (fun v => v.hash)).Nodup →
      ((loadRows env rows a).users.map (fun v => v.hash)).Nodup := by
  induction rows with
  | nil => intro a hnd; exact hnd
  | cons r rs ih =>
    intro a hnd
    unfold loadRows
    split
    · exact hnd
    · exact ih _ (loadRow_nodup a _ hnd)

theorem flush_nodup (env : Env) (us : List memory.User) :
    ∀ (a : Authenticator) (n : Int), (a.users.map (fun v => v.hash)).Nodup →
      ((us.foldl (flushUser env) (a, n)).1.users.map (fun v => v.hash)).Nodup := by
  induction us with
  | nil => intro a n hnd; exact hnd
  | cons v vs ih =>
    intro a n hnd
    rw [List.foldl_cons]
    have hus := flushUser_users env a n v
    cases hs : flushUser env (a, n) v with
    | mk a1 n1 =>
      rw [hs] at hus
      apply ih a1 n1
      change (a1.toAuthenticator.users.map _).Nodup
      rw [hus]
      split
      · exact memory.DelUser_nodup _ _ (memory.writeBack_nodup _ _ hnd)
      · exact memory.writeBack_nodup _ _ hnd

theorem cycle_nodup (env : Env) (a : Authenticator)
    (hnd : (a.users.map (fun v => v.hash)).Nodup) :
    ((cycle env a).1.users.map (fun v => v.hash)).Nodup := by
  have h1 : ((flushPhase env a).1.users.map (fun v => v.hash)).Nodup :=
    flush_nodup env a.users a 0 hnd
  unfold cycle loadPhase
  split
  · exact h1
  · exact loadRows_nodup env _ _ h1

theorem AuthUser_nodup (env : Env) (a : Authenticator) (hash : String)
    (hnd : (a.users.map (fun v => v.hash)).Nodup) :
    ((a.AuthUser env hash).2.users.map (fun v => v.hash)).Nodup := by
  unfold Authenticator.AuthUser
  simp only []
  split
  · exact hnd
  · split
    · exact hnd
    · split
      · simp only []
        split
        · exact memory.writeBack_nodup _ _ (memory.AddUser_nodup _ _ hnd)
        · exact memory.AddUser_nodup _ _ hnd
      · exact hnd
end TrojanGo
